import Mathlib

/-
  Verification of the code-generation core of rust-bindgen
  (src/codegen/mod.rs), as a shallow embedding in Lean 4.

  The embedding models the data the emitter consumes (IR items, bitfields,
  enum variants, function and variable items) and the transient
  CodegenResult state (dedup sets, overload counters, helper-type flags),
  and translates the emitter functions that the claims are about.
  Collaborators that the spec declares external (name mangling, the token
  builder) are abstracted: mangling becomes a function parameter, token
  trees become first-order descriptions of the emitted items.
-/

set_option maxRecDepth 4096

namespace Bindgen

/-! ## Module emitter: helper-type prepending (src/codegen/mod.rs 371-394, 3331-3544) -/

/-- One output token tree in the emitted item stream. Each block pushed by
the `utils::prepend_*` helpers is a dedicated constructor; ordinary emitted
items are `plain`. -/
inductive Tok
  | objcUse
  | objcIdType
  | complexDecl
  | incompleteArrayDecl
  | incompleteArrayImpl
  | incompleteArrayDebugImpl
  | incompleteArrayCloneImpl
  | incompleteArrayCopyImpl
  | unionFieldDecl
  | unionFieldImpl
  | unionFieldDefaultImpl
  | unionFieldCloneImpl
  | unionFieldCopyImpl
  | unionFieldDebugImpl
  | unionFieldHashImpl
  | unionFieldPartialEqImpl
  | unionFieldEqImpl
  | plain (n : Nat)
deriving DecidableEq, Repr

/-- The two items built by `utils::prepend_objc_header`. -/
def objcHeaderItems : List Tok := [Tok.objcUse, Tok.objcIdType]

/-- The nine items built by `utils::prepend_union_types`. -/
def unionTypesItems : List Tok :=
  [Tok.unionFieldDecl, Tok.unionFieldImpl, Tok.unionFieldDefaultImpl,
   Tok.unionFieldCloneImpl, Tok.unionFieldCopyImpl, Tok.unionFieldDebugImpl,
   Tok.unionFieldHashImpl, Tok.unionFieldPartialEqImpl, Tok.unionFieldEqImpl]

/-- The five items built by `utils::prepend_incomplete_array_types`. -/
def incompleteArrayItems : List Tok :=
  [Tok.incompleteArrayDecl, Tok.incompleteArrayImpl,
   Tok.incompleteArrayDebugImpl, Tok.incompleteArrayCloneImpl,
   Tok.incompleteArrayCopyImpl]

/-- The single item built by `utils::prepend_complex_type`. -/
def complexTypeItems : List Tok := [Tok.complexDecl]

/-- Model of `utils::prepend_objc_header`: `mem::replace` the result vector
by the helper items, then re-extend with the old items, i.e. prepend. -/
def prepend_objc_header (result : List Tok) : List Tok :=
  objcHeaderItems ++ result

/-- Model of `utils::prepend_union_types`. -/
def prepend_union_types (result : List Tok) : List Tok :=
  unionTypesItems ++ result

/-- Model of `utils::prepend_incomplete_array_types`. -/
def prepend_incomplete_array_types (result : List Tok) : List Tok :=
  incompleteArrayItems ++ result

/-- Model of `utils::prepend_complex_type`. -/
def prepend_complex_type (result : List Tok) : List Tok :=
  complexTypeItems ++ result

/-- The CodegenResult flags consulted at the root module
(`saw_bindgen_union`, `saw_incomplete_array`,
`ctx.need_bindegen_complex_type()`, `saw_objc`). -/
structure RootFlags where
  saw_bindgen_union : Bool
  saw_incomplete_array : Bool
  need_complex : Bool
  saw_objc : Bool
deriving DecidableEq, Repr

/-- The tail of `codegen_self` in `<Module as CodeGenerator>::codegen`
(lines 380-393): when the emitted module is the root, conditionally prepend
each helper-type block, in source order union, incomplete array, complex,
Objective-C. -/
def finalizeRoot (flags : RootFlags) (result : List Tok) : List Tok :=
  let result :=
    if flags.saw_bindgen_union then prepend_union_types result else result
  let result :=
    if flags.saw_incomplete_array then prepend_incomplete_array_types result
    else result
  let result :=
    if flags.need_complex then prepend_complex_type result else result
  let result :=
    if flags.saw_objc then prepend_objc_header result else result
  result

/-! ## Bitfield units and accessors (src/codegen/mod.rs 1112-1404) -/

/-- Doubling loop behind `nextPowerOfTwo`: starting from the power of two
`p`, double until reaching at least `n`; the fuel argument (instantiated
with `n` itself) only bounds the recursion. -/
def nextPowLoop (n : Nat) : Nat → Nat → Nat
  | 0, p => p
  | fuel + 1, p => if n ≤ p then p else nextPowLoop n fuel (2 * p)

/-- Rust `usize::next_power_of_two`: the least power of two that is
greater than or equal to `n` (1 for `n = 0`). -/
def nextPowerOfTwo (n : Nat) : Nat :=
  nextPowLoop n n 1

/-- Rust `usize::is_power_of_two`: `n` is nonzero and already equal to the
least power of two above it. -/
def isPowerOfTwo (n : Nat) : Bool :=
  n != 0 && nextPowerOfTwo n == n

/-- Lines 1185-1188: the unit storage size rounded up to a power of two. -/
def unitFieldIntBytes (size : Nat) : Nat :=
  if isPowerOfTwo size then size else nextPowerOfTwo size

/-- Lines 1190-1202: the width in bits of `unit_field_int_ty`, the stack
integer the accessors operate on; `none` for unit sizes above 8 bytes, for
which accessor generation is skipped. -/
def unitIntWidth (size : Nat) : Option Nat :=
  match unitFieldIntBytes size with
  | 1 => some 8
  | 2 => some 16
  | 4 => some 32
  | 8 => some 64
  | _ => none

/-- One bitfield inside a bitfield unit, as the IR hands it to the emitter.
`mask` is the IR-provided `self.mask()`; the IR invariant (spec data model)
is `mask = ((1 << width) - 1) << offset_into_unit`. `ty_layout_size` is the
byte size of the layout of the declared type (so `helpers::blob` of that
layout is the unsigned integer of `8 * ty_layout_size` bits), and
`ty_signed` records whether the declared type is signed, which fixes the
meaning of the final `transmute`. -/
structure Bitfield where
  name : String
  width : Nat
  offset_into_unit : Nat
  mask : Nat
  ty_layout_size : Nat
  ty_signed : Bool
deriving DecidableEq, Repr

/-- Twos-complement truncation: the Rust cast `v as uN` for an `N`-bit
unsigned target. -/
def toBits (n : Nat) (v : Int) : Nat :=
  (v % ((2 : Int) ^ n)).toNat

/-- The Rust `transmute::<uN, T>` of an `N`-bit unsigned value to the
bitfield declared type: twos-complement reinterpretation when the declared
type is signed, identity otherwise. -/
def interpBits (signed : Bool) (n : Nat) (b : Nat) : Int :=
  if signed && decide (2 ^ (n - 1) ≤ b) then (b : Int) - 2 ^ n else (b : Int)

/-- The generated getter body (lines 1352-1372): copy the unit bytes into a
stack integer of `uw` bits, `let mask = #mask as #unit_field_int_ty`,
`let val = (unit_field_val & mask) >> #offset`, then
`transmute(val as #bitfield_int_ty)`. -/
def bitfieldGet (bf : Bitfield) (uw : Nat) (unit : Nat) : Int :=
  let dw := 8 * bf.ty_layout_size
  let mask := bf.mask % 2 ^ uw
  let val := (unit &&& mask) >>> bf.offset_into_unit
  interpBits bf.ty_signed dw (val % 2 ^ dw)

/-- The generated setter body (lines 1374-1401):
`let mask = #mask as #unit_field_int_ty`,
`let val = val as #bitfield_int_ty as #unit_field_int_ty`, then
`unit_field_val &= !mask; unit_field_val |= (val << #offset) & mask`. -/
def bitfieldSet (bf : Bitfield) (uw : Nat) (unit : Nat) (v : Int) : Nat :=
  let dw := 8 * bf.ty_layout_size
  let mask := bf.mask % 2 ^ uw
  let val := toBits dw v % 2 ^ uw
  (unit &&& ((2 ^ uw - 1) ^^^ mask)) |||
    ((val <<< bf.offset_into_unit) &&& mask)

/-- Line 1262-1277 `parent_has_method`: whether the parent composite has a
method whose name, raw or mangled, equals `name`. The method list is
abstracted to the list of the method function names; `mangle` is the
external `ctx.rust_mangle`. -/
def parent_has_method (mangle : String → String) (parentMethods : List String)
    (name : String) : Bool :=
  parentMethods.any fun m => m == name || mangle m == name

/-- Lines 1279-1295 `bitfield_getter_name`: the mangled bitfield name, with
a `_bindgen_bitfield` suffix when it collides with a parent method. -/
def bitfield_getter_name (mangle : String → String)
    (parentMethods : List String) (bitfieldName : String) : String :=
  let name := mangle bitfieldName
  if parent_has_method mangle parentMethods name then
    name ++ "_bindgen_bitfield"
  else name

/-- Lines 1297-1311 `bitfield_setter_name`: the mangled `set_<name>`, with
a `_bindgen_bitfield` suffix when it collides with a parent method. -/
def bitfield_setter_name (mangle : String → String)
    (parentMethods : List String) (bitfieldName : String) : String :=
  let setter := mangle ("set_" ++ bitfieldName)
  if parent_has_method mangle parentMethods setter then
    setter ++ "_bindgen_bitfield"
  else setter

/-- A bitfield unit field of a composite (IR side). -/
structure BitfieldUnit where
  nth : Nat
  size : Nat
  bitfields : List Bitfield
deriving DecidableEq, Repr

/-- An inherent method pushed by the field emitter: a bitfield getter or
setter with its name and its body semantics (a function of the current unit
value, of `uw` bits), or the unit constructor with its parameter names and
its body semantics (a function of the parameter values). -/
inductive CompMethod
  | getter (name : String) (body : Nat → Int)
  | setter (name : String) (body : Nat → Int → Nat)
  | unitCtor (name : String) (params : List String) (body : List Int → Nat)

/-- The emitted name of a method. -/
def CompMethod.methodName : CompMethod → String
  | .getter n _ => n
  | .setter n _ => n
  | .unitCtor n _ _ => n

/-- Lines 1130-1153 `Bitfield::extend_ctor_impl`, folded over the unit
bitfields starting from `0` (lines 1206, 1232-1237): each parameter is cast
to the bitfield blob integer, then to the unit integer, shifted and masked,
and bitwise-ored into the accumulator. -/
def unitCtorBody (uw : Nat) (bfs : List Bitfield) (vs : List Int) : Nat :=
  (List.zip bfs vs).foldl
    (fun acc p =>
      acc |||
        (((toBits (8 * p.1.ty_layout_size) p.2 % 2 ^ uw) <<<
            p.1.offset_into_unit) &&&
          (p.1.mask % 2 ^ uw)))
    0

/-- Lines 1313-1404, `<Bitfield as FieldCodegen>::codegen`: push a getter
and a setter for one bitfield into the method list. -/
def bitfieldAccessors (mangle : String → String) (parentMethods : List String)
    (uw : Nat) (bf : Bitfield) : List CompMethod :=
  [CompMethod.getter (bitfield_getter_name mangle parentMethods bf.name)
      (bitfieldGet bf uw),
   CompMethod.setter (bitfield_setter_name mangle parentMethods bf.name)
      (fun unit v => bitfieldSet bf uw unit v)]

/-- Lines 1156-1254, `<BitfieldUnit as FieldCodegen>::codegen`: emit the
storage field `_bitfield_N`, and, when the unit integer width is available
(unit size at most 8 bytes), per-bitfield accessors followed by the
`new_bitfield_N` constructor. Returns the field names and the methods. -/
def bitfieldUnitCodegen (mangle : String → String)
    (parentMethods : List String) (u : BitfieldUnit) :
    List String × List CompMethod :=
  let fields := ["_bitfield_" ++ toString u.nth]
  match unitIntWidth u.size with
  | none => (fields, [])
  | some uw =>
    (fields,
      (u.bitfields.flatMap fun bf =>
        bitfieldAccessors mangle parentMethods uw bf) ++
      [CompMethod.unitCtor ("new_bitfield_" ++ toString u.nth)
        (u.bitfields.map fun bf =>
          bitfield_getter_name mangle parentMethods bf.name)
        (unitCtorBody uw u.bitfields)])

/-- The getter computation exactly as the spec words it: mask off the bit
range `mask = ((1 << width) - 1) << offset_in_unit`, shift by the offset,
and transmute to the declared type. Used to compare the emitted body
against the specified one. -/
def specBitfieldGet (bf : Bitfield) (uw : Nat) (unit : Nat) : Int :=
  let mask := (((1 <<< bf.width) - 1) <<< bf.offset_into_unit) % 2 ^ uw
  interpBits bf.ty_signed (8 * bf.ty_layout_size)
    (((unit &&& mask) >>> bf.offset_into_unit) % 2 ^ (8 * bf.ty_layout_size))

/-- The setter computation as the spec words it, with the same mask. -/
def specBitfieldSet (bf : Bitfield) (uw : Nat) (unit : Nat) (v : Int) : Nat :=
  let mask := (((1 <<< bf.width) - 1) <<< bf.offset_into_unit) % 2 ^ uw
  let val := toBits (8 * bf.ty_layout_size) v % 2 ^ uw
  (unit &&& ((2 ^ uw - 1) ^^^ mask)) |||
    ((val <<< bf.offset_into_unit) &&& mask)

/-! ## Type renderer: infallible opaque fallback (src/codegen/mod.rs 2565-2723) -/

/-- An IR layout: size and alignment in bytes. -/
structure Layout where
  size : Nat
  align : Nat
deriving DecidableEq, Repr

/-- Modelled from the spec: the best-effort 1-byte fallback layout built by
`Layout::for_size(1)` (`ir/layout.rs` is not part of the codegen source);
per the spec error policy it is a 1-byte blob, i.e. size 1, alignment 1. -/
def oneByteLayout : Layout := ⟨1, 1⟩

/-- A rendered Rust type reference: either an opaque blob of a given layout
(`helpers::blob`) or a structural rendering, abstracted by a name. -/
inductive RustTy
  | blob (l : Layout)
  | ty (path : String)
deriving DecidableEq, Repr

/-- An IR item as seen by the conversion traits: the outcome of the
fallible structural renderer `try_to_rust_ty` (abstracted: the renderer
itself spans the whole module and is not under test here) and the outcome
of `try_get_layout`. -/
structure IrItem where
  rendered : Option RustTy
  layout : Option Layout
deriving DecidableEq, Repr

/-- `TryToRustTy::try_to_rust_ty` for the abstracted item. -/
def try_to_rust_ty (it : IrItem) : Option RustTy := it.rendered

/-- `TryToOpaque::try_get_layout` for the abstracted item. -/
def try_get_layout (it : IrItem) : Option Layout := it.layout

/-- Lines 2603-2607 `ToOpaque::get_layout`:
`try_get_layout.unwrap_or_else(|_| Layout::for_size(1))`. -/
def get_layout (it : IrItem) : Layout :=
  (try_get_layout it).getD oneByteLayout

/-- Lines 2609-2616, the infallible conversion of the `ToOpaque` trait
(named `to_opaque` in the source): the blob of `get_layout`. -/
def toOpaqueBlob (it : IrItem) : RustTy :=
  RustTy.blob (get_layout it)

/-- Lines 2714-2722, the infallible conversion of the `ToRustTyOrOpaque`
trait (named `to_rust_ty_or_opaque` in the source):
`try_to_rust_ty(..).unwrap_or_else(|_| to_opaque(..))`. -/
def toRustTyOrBlob (it : IrItem) : RustTy :=
  (try_to_rust_ty it).getD (toOpaqueBlob it)

/-! ## Function emitter (src/codegen/mod.rs 120-201, 3070-3169) -/

/-- A function IR item, with the attributes the emitter consults: the
source name, the canonical name, the optional mangled name, and whether the
item has template parameters (`item.all_template_params`). -/
structure FuncItem where
  name : String
  canonical_name : String
  mangled_name : Option String
  has_type_params : Bool
deriving DecidableEq, Repr

/-- Line 3098: the symbol key used for deduplication, the mangled name when
present, otherwise the canonical name. -/
def FuncItem.symbolKey (f : FuncItem) : String :=
  f.mangled_name.getD f.canonical_name

/-- One emitted `extern` function declaration: the item it came from, the
emitted identifier (canonical name plus overload suffix), and the
`link_name` attribute if one was attached. -/
structure FnDecl where
  item : FuncItem
  ident : String
  link_name : Option String
deriving DecidableEq, Repr

/-- Association-list lookup for `overload_counters` (and `method_names`):
the count stored for a key, zero when absent. -/
def getCount : List (String × Nat) → String → Nat
  | [], _ => 0
  | (a, n) :: rest, k => if a = k then n else getCount rest k

/-- Association-list update: `*entry.or_insert(0) += 1`. -/
def bumpCount : List (String × Nat) → String → List (String × Nat)
  | [], k => [(k, 1)]
  | (a, n) :: rest, k =>
    if a = k then (a, n + 1) :: rest else (a, n) :: bumpCount rest k

/-- The parts of `CodegenResult` that function emission touches:
`functions_seen`, `overload_counters` and the emitted declarations. -/
structure FnState where
  functions_seen : List String
  overload_counters : List (String × Nat)
  decls : List FnDecl
deriving DecidableEq, Repr

/-- The initial `CodegenResult` function state. -/
def fnInit : FnState := ⟨[], [], []⟩

/-- Lines 3124-3128: the `link_name` attribute attached to an emitted
function: the mangled name when present, else the source name when it
differs from the canonical name. -/
def linkNameFor (f : FuncItem) : Option String :=
  match f.mangled_name with
  | some m => some m
  | none => if f.name ≠ f.canonical_name then some f.name else none

/-- Lines 3130-3135: append the `times_seen` overload counter value to the
emitted identifier when it is positive. -/
def overloadIdent (c : String) (times_seen : Nat) : String :=
  if times_seen > 0 then c ++ toString times_seen else c

/-- `<Function as CodeGenerator>::codegen` (lines 3070-3169), projected on
the state and on the parts of the emitted declaration that the claims are
about: skip items with template parameters; skip when the symbol key is in
`functions_seen`, otherwise record it; attach the `link_name` attribute;
query and bump the overload counter for the canonical name and suffix the
emitted identifier accordingly. -/
def functionCodegen (s : FnState) (f : FuncItem) : FnState :=
  if f.has_type_params then s
  else
    let key := f.symbolKey
    if key ∈ s.functions_seen then s
    else
      { functions_seen := key :: s.functions_seen
        overload_counters := bumpCount s.overload_counters f.canonical_name
        decls := s.decls ++
          [⟨f,
            overloadIdent f.canonical_name
              (getCount s.overload_counters f.canonical_name),
            linkNameFor f⟩] }

/-- One emission pass over a list of function items. -/
def codegenFunctions (s : FnState) : List FuncItem → FnState
  | [] => s
  | f :: fs => codegenFunctions (functionCodegen s f) fs

/-- The expected sequence of emitted identifiers for `n` overloads of a
canonical name `c`: `c`, `c1`, ..., `c(n-1)`. -/
def identSeq (c : String) (n : Nat) : List String :=
  (List.range n).map fun i => if i = 0 then c else c ++ toString i

/-! ## Method emitter (src/codegen/mod.rs 1943-2072) -/

/-- The method kinds of the IR (`MethodKind`). -/
inductive MethodKind
  | constructor
  | destructor
  | virtualDestructor
  | static
  | normal
  | virtual
deriving DecidableEq, Repr

/-- A composite method: its kind, the function item behind it, and whether
the resolved signature is variadic. -/
structure Method where
  kind : MethodKind
  func : FuncItem
  sig_is_variadic : Bool
deriving DecidableEq, Repr

/-- `Method::is_virtual` of the IR: virtual methods and virtual
destructors. -/
def Method.isVirtual (m : Method) : Bool :=
  m.kind = MethodKind.virtual || m.kind = MethodKind.virtualDestructor

/-- `Method::is_constructor` of the IR. -/
def Method.isConstructor (m : Method) : Bool :=
  m.kind = MethodKind.constructor

/-- `<Method as MethodCodegen>::codegen_method` (lines 1944-2072),
projected on the function state, the wrapper-method name list and the
`method_names` counters: virtual methods produce nothing; otherwise the
underlying function item is emitted as a plain extern first; the wrapper
name is `new` for constructors, `destruct` for destructors, else the
function name; variadic signatures stop before any wrapper is pushed;
otherwise the occurrence count suffixes the wrapper name. -/
def methodCodegen (s : FnState) (methods : List String)
    (method_names : List (String × Nat)) (m : Method) :
    FnState × List String × List (String × Nat) :=
  if m.isVirtual then (s, methods, method_names)
  else
    let s := functionCodegen s m.func
    let name :=
      match m.kind with
      | MethodKind.constructor => "new"
      | MethodKind.destructor => "destruct"
      | _ => m.func.name
    if m.sig_is_variadic then (s, methods, method_names)
    else
      let count := getCount method_names name
      let method_names := bumpCount method_names name
      let name := if count ≠ 0 then name ++ toString count else name
      (s, methods ++ [name], method_names)

/-! ## Variable emitter (src/codegen/mod.rs 435-546) -/

/-- The compile-time value attached to a variable item (`ir::var::VarType`).
Rendering a float literal is done by the external helper
`helpers::ast_ty::float_expr` and can fail (line 507-512); that outcome is
abstracted as the `renderable` flag. -/
inductive VarVal
  | boolVal (b : Bool)
  | intVal (i : Int)
  | strVal (bytes : List Nat)
  | floatVal (renderable : Bool)
  | charVal (c : Nat)
deriving DecidableEq, Repr

/-- A variable IR item with the attributes `<Var as CodeGenerator>::codegen`
consults. -/
structure VarItem where
  name : String
  canonical_name : String
  mangled_name : Option String
  has_type_params : Bool
  val : Option VarVal
deriving DecidableEq, Repr

/-- One emitted variable binding: a `pub const` or an `extern` static with
an optional `link_name`. -/
inductive VarOut
  | constant (name : String)
  | externStatic (name : String) (link : Option String)
deriving DecidableEq, Repr

/-- The parts of `CodegenResult` that variable emission touches. -/
structure VarState where
  vars_seen : List String
  items : List VarOut
deriving DecidableEq, Repr

/-- `<Var as CodeGenerator>::codegen` (lines 437-546): skip if the
canonical name is in `vars_seen`, otherwise record it; then skip items with
template parameters; emit a `pub const` for items with a value (except
floats whose literal cannot be rendered, which emit nothing), and an
`extern` static with an optional `link_name` otherwise. -/
def varCodegen (s : VarState) (v : VarItem) : VarState :=
  if v.canonical_name ∈ s.vars_seen then s
  else
    let s : VarState := ⟨v.canonical_name :: s.vars_seen, s.items⟩
    if v.has_type_params then s
    else
      match v.val with
      | some (VarVal.floatVal false) => s
      | some _ => ⟨s.vars_seen, s.items ++ [VarOut.constant v.canonical_name]⟩
      | none =>
        let lk : Option String :=
          match v.mangled_name with
          | some m => some m
          | none =>
            if v.canonical_name ≠ v.name then some v.name else none
        ⟨s.vars_seen, s.items ++ [VarOut.externStatic v.canonical_name lk]⟩

/-! ## Enum emitter (src/codegen/mod.rs 2075-2563) -/

/-- `ir::enum_ty::EnumVariantValue`: variant values keep their signedness
tag, and `seen_values` compares them with that tag. -/
inductive EnumVariantValue
  | signed (v : Int)
  | unsigned (v : Nat)
deriving DecidableEq, Repr

/-- An enum variant as the IR hands it to the emitter. -/
structure EnumVariant where
  name : String
  val : EnumVariantValue
  hidden : Bool
  force_constification : Bool
deriving DecidableEq, Repr

/-- The four emission strategies chosen from the configuration name
patterns (tagged Rust enum, bitfield wrapper, bare constants, module of
constants). -/
inductive EnumStyle
  | rust
  | bitfield
  | consts
  | moduleConsts
deriving DecidableEq, Repr

/-- The inputs of `<Enum as CodeGenerator>::codegen` that variant emission
consults: the chosen strategy, the `prepend_enum_name` option, whether the
enum item is top-level, the canonical name of the parent (used to mangle
constants of anonymous enums), the IR name of the enum type (`none` for
anonymous enums) and the canonical name of the enum item. The external
`ctx.rust_mangle` is taken as the identity here. -/
structure EnumParams where
  style : EnumStyle
  prepend_enum_name : Bool
  is_toplevel : Bool
  parent_name : String
  enum_name : Option String
  canonical_name : String
deriving DecidableEq, Repr

/-- One item produced by enum variant emission, with the variant it
originated from: a variant arm of the tagged enum, a `pub const` alias
`const name : E = E::target;` pushed by `add_constant`, or a per-variant
constant of the non-tagged strategies. -/
inductive EnumOut
  | arm (source : EnumVariant) (name : String) (v : EnumVariantValue)
  | aliasConst (source : EnumVariant) (name : String) (target : String)
  | variantConst (source : EnumVariant) (name : String) (v : EnumVariantValue)
deriving DecidableEq, Repr

/-- The variant an output item originated from. -/
def EnumOut.source : EnumOut → EnumVariant
  | .arm s _ _ => s
  | .aliasConst s _ _ => s
  | .variantConst s _ _ => s

/-- Whether an output item is a variant arm. -/
def EnumOut.isArm : EnumOut → Bool
  | .arm _ _ _ => true
  | _ => false

/-- Lines 2447-2455 `constant_mangling_prefix`. -/
def constMangling (P : EnumParams) : Option String :=
  if P.prepend_enum_name then
    if P.enum_name = none then
      if P.is_toplevel then none else some P.parent_name
    else some P.canonical_name
  else none

/-- Lines 2404-2413 inside `add_constant`: prefix the passed variant name
with the canonical enum name for named enums under `prepend_enum_name`. -/
def addConstantName (P : EnumParams) (variantName : String) : String :=
  if P.enum_name.isSome then
    if P.prepend_enum_name then P.canonical_name ++ "_" ++ variantName
    else variantName
  else variantName

/-- Lines 2161-2208, the constant name used by `EnumBuilder::with_variant`
for the non-tagged strategies: the `constant_mangling_prefix` applies to
the bitfield and bare-constant styles, while module constants use the bare
variant name. -/
def withVariantConstName (P : EnumParams) (n : String) : String :=
  match P.style with
  | EnumStyle.moduleConsts => n
  | _ =>
    match constMangling P with
    | some p => p ++ "_" ++ n
    | none => n

/-- Lines 2479-2490: the name under which a duplicate-valued variant of a
tagged enum is emitted as a constant (parent-prefixed for anonymous
non-top-level enums). -/
def dupMangledName (P : EnumParams) (v : EnumVariant) : String :=
  if P.is_toplevel || P.enum_name.isSome then v.name
  else P.parent_name ++ "_" ++ v.name

/-- Lines 2529-2542: the name of the sibling constant generated in the
fresh-value branch for unnamed enums and force-constified variants. -/
def vacantConstName (P : EnumParams) (v : EnumVariant) : String :=
  if P.is_toplevel then v.name
  else P.parent_name ++ "_" ++ v.name

/-- Lookup in the `seen_values` value-to-first-variant map, modelled as an
association list in insertion order. -/
def lookupSeen : List (EnumVariantValue × String) → EnumVariantValue →
    Option String
  | [], _ => none
  | (x, n) :: rest, k => if x = k then some n else lookupSeen rest k

/-- The `Entry::Occupied` branch (lines 2477-2511): for a tagged enum the
variant becomes a `pub const` alias to the first variant with that value;
for the other strategies `with_variant` emits its ordinary constant. -/
def occupiedOut (P : EnumParams) (v : EnumVariant) (first : String) :
    List EnumOut :=
  if P.style = EnumStyle.rust then
    [EnumOut.aliasConst v (addConstantName P (dupMangledName P v)) first]
  else
    [EnumOut.variantConst v (withVariantConstName P v.name) v.val]

/-- The `Entry::Vacant` branch (lines 2512-2556): the variant becomes an
arm (tagged) or a constant (other strategies); unnamed tagged enums and
force-constified variants additionally emit a sibling constant referencing
the variant. -/
def vacantOut (P : EnumParams) (v : EnumVariant) : List EnumOut :=
  let main :=
    if P.style = EnumStyle.rust then EnumOut.arm v v.name v.val
    else EnumOut.variantConst v (withVariantConstName P v.name) v.val
  let extra :=
    if (P.style = EnumStyle.rust && P.enum_name = none) ||
        v.force_constification then
      [EnumOut.aliasConst v (addConstantName P (vacantConstName P v)) v.name]
    else []
  main :: extra

/-- The variant loop of `<Enum as CodeGenerator>::codegen` (lines
2460-2558): variants are drawn from the iterator, falling back to the
deferred `constified_variants` queue once it is exhausted; hidden variants
are skipped; a force-constified variant with later variants remaining is
deferred; otherwise the `seen_values` entry for its value decides between
the occupied and the vacant branch. Returns the emitted items and the
final `seen_values` map. -/
def emitVariants (P : EnumParams) :
    List EnumVariant → List EnumVariant →
    List (EnumVariantValue × String) →
    List EnumOut × List (EnumVariantValue × String)
  | [], [], seen => ([], seen)
  | [], v :: q, seen =>
    if v.hidden then emitVariants P [] q seen
    else
      match lookupSeen seen v.val with
      | some first =>
        let r := emitVariants P [] q seen
        (occupiedOut P v first ++ r.1, r.2)
      | none =>
        let r := emitVariants P [] q (seen ++ [(v.val, v.name)])
        (vacantOut P v ++ r.1, r.2)
  | v :: rest, q, seen =>
    if v.hidden then emitVariants P rest q seen
    else if v.force_constification && !rest.isEmpty then
      emitVariants P rest (q ++ [v]) seen
    else
      match lookupSeen seen v.val with
      | some first =>
        let r := emitVariants P rest q seen
        (occupiedOut P v first ++ r.1, r.2)
      | none =>
        let r := emitVariants P rest q (seen ++ [(v.val, v.name)])
        (vacantOut P v ++ r.1, r.2)
termination_by rem q _ => 2 * rem.length + q.length
decreasing_by
  all_goals simp [List.length_append]
  all_goals omega

/-- The items emitted for the variants of one enum. -/
def enumCodegen (P : EnumParams) (vs : List EnumVariant) : List EnumOut :=
  (emitVariants P vs [] []).1

/-- The final `seen_values` map after emitting one enum. -/
def enumFinalSeen (P : EnumParams) (vs : List EnumVariant) :
    List (EnumVariantValue × String) :=
  (emitVariants P vs [] []).2

/-- The number of variant arms among the emitted items. -/
def countArms (outs : List EnumOut) : Nat :=
  (outs.filter EnumOut.isArm).length

/-- The number of distinct values among the non-hidden variants. -/
def distinctNonHiddenValues (vs : List EnumVariant) : Nat :=
  (((vs.filter fun v => !v.hidden).map EnumVariant.val).toFinset).card

/-- The tagged-enum emission as the claim words it: walk the (non-hidden)
variants in declaration order; a variant with a fresh value becomes an arm
(unnamed enums also get a sibling constant); a variant whose value
duplicates an earlier one becomes a `pub const` alias to the first variant
carrying that value. -/
def claimRustEmit (P : EnumParams) :
    List EnumVariant → List (EnumVariantValue × String) → List EnumOut
  | [], _ => []
  | v :: rest, seen =>
    match lookupSeen seen v.val with
    | some first =>
      EnumOut.aliasConst v (addConstantName P (dupMangledName P v)) first ::
        claimRustEmit P rest seen
    | none =>
      (EnumOut.arm v v.name v.val ::
        (if P.enum_name = none then
          [EnumOut.aliasConst v (addConstantName P (vacantConstName P v))
            v.name]
        else [])) ++
        claimRustEmit P rest (seen ++ [(v.val, v.name)])

/-! ## Concrete instances used to evaluate the theorems -/

/-- A 3-bit signed bitfield (declared type `int`, 4-byte layout) at offset
0 of a 1-byte unit; its IR mask is `0b111`. -/
def signedBitfieldEx : Bitfield := ⟨"x", 3, 0, 7, 4, true⟩

/-- The 1-bit `bool` bitfield `a` of the `only_bitfields.rs` expectation
test: `struct C { bool a: 1; bool b: 7; }`. -/
def bfA : Bitfield := ⟨"a", 1, 0, 1, 1, false⟩

/-- The 7-bit `bool` bitfield `b` of the same test. -/
def bfB : Bitfield := ⟨"b", 7, 1, 254, 1, false⟩

/-- The 1-byte bitfield unit of `struct C` above. -/
def unitC : BitfieldUnit := ⟨1, 1, [bfA, bfB]⟩

/-- A plain C function item. -/
def fFoo : FuncItem := ⟨"foo", "foo", none, false⟩

/-- An overload of `foo` carrying a mangled name. -/
def fFooMangled : FuncItem := ⟨"foo", "foo", some "_Z3foov", false⟩

/-- A state in which the symbol `foo` has already been emitted. -/
def stFooSeen : FnState := ⟨["foo"], [], []⟩

/-- A virtual variadic method on `foo`. -/
def mVirtEx : Method := ⟨MethodKind.virtual, fFoo, true⟩

/-- A non-virtual variadic method on `foo`. -/
def mVariadicEx : Method := ⟨MethodKind.normal, fFoo, true⟩

/-- A templated static member variable: skipped after being recorded. -/
def vTmplEx : VarItem := ⟨"x", "x", none, true, none⟩

/-- A later plain variable with the same canonical name. -/
def vLaterEx : VarItem := ⟨"x", "x", none, false, some (VarVal.intVal 3)⟩

/-- The enum parameters of spec scenario 6: a named top-level enum `E`
emitted in the tagged style with `prepend_enum_name` set. -/
def enumParamsE : EnumParams := ⟨EnumStyle.rust, true, true, "", some "E", "E"⟩

/-- The variants of spec scenario 6: `enum E { A = 1, B = 1, C = 2 }`. -/
def variantsE : List EnumVariant :=
  [⟨"A", EnumVariantValue.signed 1, false, false⟩,
   ⟨"B", EnumVariantValue.signed 1, false, false⟩,
   ⟨"C", EnumVariantValue.signed 2, false, false⟩]

/-- A named top-level tagged enum without `prepend_enum_name`. -/
def enumParamsH : EnumParams := ⟨EnumStyle.rust, false, true, "", some "E", "E"⟩

/-- Variants with a hidden variant carrying a unique value:
`A = 1` hidden, `B = 2` visible. -/
def variantsH : List EnumVariant :=
  [⟨"A", EnumVariantValue.unsigned 1, true, false⟩,
   ⟨"B", EnumVariantValue.unsigned 2, false, false⟩]

/-! ## Theorems -/

/-- C6: for every emission pass in which helper types are needed, the
helper-type blocks are prepended at position 0 of the root module output,
before every emitted item, in the fixed order Objective-C prelude, then
the complex wrapper, then the incomplete-array wrapper, then the union
wrapper, then all other items. -/
theorem c6_helper_types_prepended_in_fixed_order (flags : RootFlags)
    (items : List Tok) :
    finalizeRoot flags items =
      (if flags.saw_objc then objcHeaderItems else []) ++
      (if flags.need_complex then complexTypeItems else []) ++
      (if flags.saw_incomplete_array then incompleteArrayItems else []) ++
      (if flags.saw_bindgen_union then unionTypesItems else []) ++
      items := by
  cases flags with
  | mk u i c o =>
    cases u <;> cases i <;> cases c <;> cases o <;>
      simp [finalizeRoot, prepend_union_types,
        prepend_incomplete_array_types, prepend_complex_type,
        prepend_objc_header]

/-- C7 (amended): `toRustTyOrBlob` never fails; when the fallible
renderer fails, the result is an opaque blob sized to the IR-reported
layout, and it is the 1-byte blob whenever the IR reports no layout (the
only-if direction of the original claim is dropped: an IR-reported layout
of size 1 and alignment 1 yields the same 1-byte blob). -/
theorem c7_opaque_fallback_amended (it : IrItem)
    (h : try_to_rust_ty it = none) :
    toRustTyOrBlob it = RustTy.blob (it.layout.getD oneByteLayout) ∧
    (it.layout = none →
      toRustTyOrBlob it = RustTy.blob oneByteLayout) := by
  have h2 : it.rendered = none := h
  constructor
  · simp [toRustTyOrBlob, try_to_rust_ty, h2, toOpaqueBlob, get_layout,
      try_get_layout]
  · intro hl
    simp [toRustTyOrBlob, try_to_rust_ty, h2, toOpaqueBlob, get_layout,
      try_get_layout, hl]

/-- Witness for C7 at an item with no rendering and no layout. -/
theorem c7_opaque_fallback_amended_witness :
    try_to_rust_ty ⟨none, none⟩ = none ∧
    (toRustTyOrBlob ⟨none, none⟩ =
        RustTy.blob ((⟨none, none⟩ : IrItem).layout.getD oneByteLayout) ∧
      ((⟨none, none⟩ : IrItem).layout = none →
        toRustTyOrBlob ⟨none, none⟩ = RustTy.blob oneByteLayout)) :=
  ⟨rfl, c7_opaque_fallback_amended ⟨none, none⟩ rfl⟩

/-- C7 counterexample: an item whose structural rendering fails and whose
IR-reported layout is size 1, alignment 1, produces exactly the 1-byte
blob although the IR does report a layout, refuting the claimed
equivalence of a 1-byte blob with the absence of a layout. -/
theorem c7_counterexample_one_byte_layout :
    toRustTyOrBlob ⟨none, some ⟨1, 1⟩⟩ = RustTy.blob oneByteLayout ∧
    (⟨none, some ⟨1, 1⟩⟩ : IrItem).layout ≠ none := by
  decide

/-- C1: the claimed round-trip fails on the code for signed bitfields. A
3-bit signed bitfield at offset 0 of a 1-byte unit (unit size at most 8
bytes, accessors generated with a `u8` unit integer), whose IR mask
satisfies the data-model invariant, is set to the in-domain value `-1`
(the sign-extended domain of width 3 is `-4 ≤ v < 4`); the generated
getter then returns `7`, not `-1`, because the getter zero-extends the
extracted bits instead of sign-extending them. -/
theorem c1_signed_bitfield_roundtrip_code_bug :
    unitIntWidth 1 = some 8 ∧
    signedBitfieldEx.mask =
      ((1 <<< signedBitfieldEx.width) - 1) <<<
        signedBitfieldEx.offset_into_unit ∧
    ((-(2 ^ 2) : Int) ≤ -1 ∧ (-1 : Int) < 2 ^ 2) ∧
    bitfieldGet signedBitfieldEx 8
        (bitfieldSet signedBitfieldEx 8 0 (-1)) = 7 ∧
    (7 : Int) ≠ -1 := by
  refine ⟨by decide, by decide, by decide, ?_, by decide⟩
  decide

/-- C5 (amended): for every bitfield of a unit for which accessors are
generated, the emitted methods contain a getter named after the (mangled)
bitfield name itself, not `get_<name>`, and a setter named
`set_<name>`, and their bodies compute exactly the specified mask of
`((1 << width) - 1) << offset_in_unit`, shift, and transmute, given the
IR mask invariant. -/
theorem c5_bitfield_accessors_amended (mangle : String → String)
    (parentMethods : List String) (u : BitfieldUnit) (uw : Nat)
    (bf : Bitfield) (hmem : bf ∈ u.bitfields)
    (hw : unitIntWidth u.size = some uw)
    (hmask : bf.mask = ((1 <<< bf.width) - 1) <<< bf.offset_into_unit) :
    CompMethod.getter (bitfield_getter_name mangle parentMethods bf.name)
        (bitfieldGet bf uw) ∈ (bitfieldUnitCodegen mangle parentMethods u).2 ∧
    CompMethod.setter (bitfield_setter_name mangle parentMethods bf.name)
        (fun unit v => bitfieldSet bf uw unit v) ∈
      (bitfieldUnitCodegen mangle parentMethods u).2 ∧
    bitfieldGet bf uw = specBitfieldGet bf uw ∧
    (fun unit v => bitfieldSet bf uw unit v) = specBitfieldSet bf uw := by
  have hunit : (bitfieldUnitCodegen mangle parentMethods u).2 =
      (u.bitfields.flatMap fun b =>
        bitfieldAccessors mangle parentMethods uw b) ++
      [CompMethod.unitCtor ("new_bitfield_" ++ toString u.nth)
        (u.bitfields.map fun b =>
          bitfield_getter_name mangle parentMethods b.name)
        (unitCtorBody uw u.bitfields)] := by
    rw [bitfieldUnitCodegen, hw]
  refine ⟨?_, ?_, ?_, ?_⟩
  · rw [hunit]
    exact List.mem_append_left _
      (List.mem_flatMap.mpr ⟨bf, hmem, by simp [bitfieldAccessors]⟩)
  · rw [hunit]
    exact List.mem_append_left _
      (List.mem_flatMap.mpr ⟨bf, hmem, by simp [bitfieldAccessors]⟩)
  · funext unit
    simp only [bitfieldGet, specBitfieldGet, hmask]
  · funext unit v
    simp only [bitfieldSet, specBitfieldSet, hmask]

/-- Witness for C5 at bitfield `a` of the `only_bitfields.rs` unit. -/
theorem c5_bitfield_accessors_amended_witness :
    bfA ∈ unitC.bitfields ∧
    unitIntWidth unitC.size = some 8 ∧
    bfA.mask = ((1 <<< bfA.width) - 1) <<< bfA.offset_into_unit ∧
    (CompMethod.getter (bitfield_getter_name (fun s => s) [] bfA.name)
        (bitfieldGet bfA 8) ∈ (bitfieldUnitCodegen (fun s => s) [] unitC).2 ∧
      CompMethod.setter (bitfield_setter_name (fun s => s) [] bfA.name)
          (fun unit v => bitfieldSet bfA 8 unit v) ∈
        (bitfieldUnitCodegen (fun s => s) [] unitC).2 ∧
      bitfieldGet bfA 8 = specBitfieldGet bfA 8 ∧
      (fun unit v => bitfieldSet bfA 8 unit v) = specBitfieldSet bfA 8) :=
  ⟨by decide, by decide, by decide,
    c5_bitfield_accessors_amended (fun s => s) [] unitC 8 bfA (by decide)
      (by decide) (by decide)⟩

/-- C5 counterexample: for the unit of `struct C { bool a: 1; bool b: 7; }`
with no mangling and no parent methods, the emitted method names are
`a`, `set_a`, `b`, `set_b`, `new_bitfield_1`; no method named `get_a`
exists, refuting the claimed getter name `get_<name>`. -/
theorem c5_counterexample_getter_name :
    ((bitfieldUnitCodegen (fun s => s) [] unitC).2.map
        CompMethod.methodName) =
      ["a", "set_a", "b", "set_b", "new_bitfield_1"] ∧
    "get_a" ∉ ((bitfieldUnitCodegen (fun s => s) [] unitC).2.map
        CompMethod.methodName) := by
  constructor
  · rfl
  · decide

/-- C9: variable emission records the canonical name in `vars_seen` before
deciding whether the variable can be emitted, so a variable skipped for
template parameters or an unrenderable float literal produces no output
yet suppresses every later variable with the same canonical name in the
same pass. -/
theorem c9_vars_seen_recorded_before_skip (s : VarState) (v w : VarItem)
    (hnew : v.canonical_name ∉ s.vars_seen)
    (hskip : v.has_type_params = true ∨
      v.val = some (VarVal.floatVal false))
    (hsame : w.canonical_name = v.canonical_name) :
    (varCodegen s v).items = s.items ∧
    v.canonical_name ∈ (varCodegen s v).vars_seen ∧
    varCodegen (varCodegen s v) w = varCodegen s v := by
  have hv : varCodegen s v = ⟨v.canonical_name :: s.vars_seen, s.items⟩ := by
    by_cases ht : v.has_type_params
    · simp [varCodegen, hnew, ht]
    · rcases hskip with ht2 | hval
      · exact absurd ht2 (by simpa using ht)
      · simp [varCodegen, hnew, ht, hval]
  refine ⟨by rw [hv], by rw [hv]; exact List.mem_cons_self _ _, ?_⟩
  rw [hv]
  have : w.canonical_name ∈
      (v.canonical_name :: s.vars_seen : List String) := by
    rw [hsame]; exact List.mem_cons_self _ _
  simp [varCodegen, this]

/-- Witness for C9: a templated static `x` followed by a plain constant of
the same canonical name. -/
theorem c9_vars_seen_recorded_before_skip_witness :
    vTmplEx.canonical_name ∉ (⟨[], []⟩ : VarState).vars_seen ∧
    vTmplEx.has_type_params = true ∧
    vLaterEx.canonical_name = vTmplEx.canonical_name ∧
    ((varCodegen ⟨[], []⟩ vTmplEx).items = (⟨[], []⟩ : VarState).items ∧
      vTmplEx.canonical_name ∈ (varCodegen ⟨[], []⟩ vTmplEx).vars_seen ∧
      varCodegen (varCodegen ⟨[], []⟩ vTmplEx) vLaterEx =
        varCodegen ⟨[], []⟩ vTmplEx) :=
  ⟨by decide, rfl, rfl,
    c9_vars_seen_recorded_before_skip ⟨[], []⟩ vTmplEx vLaterEx (by decide)
      (Or.inl rfl) rfl⟩

/-- C8 (amended): for every non-virtual composite method whose signature
is variadic, the underlying function item is still submitted for plain
extern emission (and emitted when its symbol key is new and it has no
template parameters), but no wrapper inherent method is added and the
method-name counters are untouched. -/
theorem c8_variadic_method_amended (s : FnState) (methods : List String)
    (mnames : List (String × Nat)) (m : Method)
    (hnv : m.isVirtual = false) (hva : m.sig_is_variadic = true) :
    methodCodegen s methods mnames m =
      (functionCodegen s m.func, methods, mnames) ∧
    (m.func.has_type_params = false →
      m.func.symbolKey ∉ s.functions_seen →
      (methodCodegen s methods mnames m).1.decls.map FnDecl.item =
        s.decls.map FnDecl.item ++ [m.func]) := by
  constructor
  · simp [methodCodegen, hnv, hva]
  · intro ht hseen
    simp [methodCodegen, hnv, hva, functionCodegen, ht, hseen]

/-- Witness for C8 at a non-virtual variadic method on a fresh state. -/
theorem c8_variadic_method_amended_witness :
    mVariadicEx.isVirtual = false ∧
    mVariadicEx.sig_is_variadic = true ∧
    (methodCodegen fnInit [] [] mVariadicEx =
        (functionCodegen fnInit mVariadicEx.func, [], []) ∧
      (mVariadicEx.func.has_type_params = false →
        mVariadicEx.func.symbolKey ∉ fnInit.functions_seen →
        (methodCodegen fnInit [] [] mVariadicEx).1.decls.map FnDecl.item =
          fnInit.decls.map FnDecl.item ++ [mVariadicEx.func])) :=
  ⟨by decide, rfl,
    c8_variadic_method_amended fnInit [] [] mVariadicEx (by decide) rfl⟩

/-- C8 counterexample: a virtual variadic method produces no output at
all; in particular the underlying plain extern declaration is not
emitted, refuting the claim for virtual methods. -/
theorem c8_counterexample_virtual_variadic_no_extern :
    mVirtEx.sig_is_variadic = true ∧
    mVirtEx.func.symbolKey ∉ fnInit.functions_seen ∧
    methodCodegen fnInit [] [] mVirtEx = (fnInit, [], []) ∧
    (methodCodegen fnInit [] [] mVirtEx).1.decls = [] := by
  decide

/-- Function emission is the identity when the item is skipped for
template parameters or for an already-seen symbol key. -/
theorem functionCodegen_eq_of_skip (s : FnState) (f : FuncItem)
    (h : f.has_type_params = true ∨ f.symbolKey ∈ s.functions_seen) :
    functionCodegen s f = s := by
  rcases h with h | h
  · simp [functionCodegen, h]
  · by_cases ht : f.has_type_params <;> simp [functionCodegen, ht, h]

/-- Function emission of a fresh, non-templated item records the symbol
key and appends exactly one declaration. -/
theorem functionCodegen_eq_of_new (s : FnState) (f : FuncItem)
    (ht : f.has_type_params = false)
    (hk : f.symbolKey ∉ s.functions_seen) :
    functionCodegen s f =
      ⟨f.symbolKey :: s.functions_seen,
       bumpCount s.overload_counters f.canonical_name,
       s.decls ++
         [⟨f,
           overloadIdent f.canonical_name
             (getCount s.overload_counters f.canonical_name),
           linkNameFor f⟩]⟩ := by
  simp [functionCodegen, ht, hk]

/-- One emission step preserves the invariant that every emitted
declaration has its symbol key recorded in `functions_seen` and that the
emitted symbol keys are distinct. -/
theorem functionCodegen_key_invariant (s : FnState) (f : FuncItem)
    (h1 : ∀ d ∈ s.decls, d.item.symbolKey ∈ s.functions_seen)
    (h2 : (s.decls.map fun d => d.item.symbolKey).Nodup) :
    (∀ d ∈ (functionCodegen s f).decls,
        d.item.symbolKey ∈ (functionCodegen s f).functions_seen) ∧
    ((functionCodegen s f).decls.map fun d => d.item.symbolKey).Nodup := by
  by_cases ht : f.has_type_params
  · rw [functionCodegen_eq_of_skip s f (Or.inl ht)]
    exact ⟨h1, h2⟩
  · by_cases hk : f.symbolKey ∈ s.functions_seen
    · rw [functionCodegen_eq_of_skip s f (Or.inr hk)]
      exact ⟨h1, h2⟩
    · rw [functionCodegen_eq_of_new s f (by simpa using ht) hk]
      constructor
      · intro d hd
        rcases List.mem_append.mp hd with hmem | hmem
        · exact List.mem_cons_of_mem _ (h1 d hmem)
        · obtain rfl := List.mem_singleton.mp hmem
          exact List.mem_cons_self _ _
      · rw [List.map_append]
        refine List.Nodup.append h2 (List.nodup_singleton _) ?_
        intro x hx hx'
        simp only [List.map_cons, List.map_nil, List.mem_singleton] at hx'
        rcases List.mem_map.mp hx with ⟨d, hd, rfl⟩
        exact hk (hx' ▸ h1 d hd)

/-- A whole pass preserves the symbol-key invariant. -/
theorem codegenFunctions_key_invariant (fs : List FuncItem) :
    ∀ (s : FnState),
    (∀ d ∈ s.decls, d.item.symbolKey ∈ s.functions_seen) →
    ((s.decls.map fun d => d.item.symbolKey).Nodup) →
    (∀ d ∈ (codegenFunctions s fs).decls,
        d.item.symbolKey ∈ (codegenFunctions s fs).functions_seen) ∧
    ((codegenFunctions s fs).decls.map fun d => d.item.symbolKey).Nodup := by
  induction fs with
  | nil => exact fun s h1 h2 => ⟨h1, h2⟩
  | cons f fs ih =>
    intro s h1 h2
    rw [codegenFunctions]
    have step := functionCodegen_key_invariant s f h1 h2
    exact ih (functionCodegen s f) step.1 step.2

/-- C2: a function item whose symbol key (mangled name when present, else
canonical name) is already in `functions_seen` produces no output and no
state change; consequently, in any pass, the symbol keys of the emitted
extern declarations are pairwise distinct. -/
theorem c2_function_symbol_dedup :
    (∀ (s : FnState) (f : FuncItem),
        f.symbolKey ∈ s.functions_seen → functionCodegen s f = s) ∧
    ∀ (fs : List FuncItem),
      ((codegenFunctions fnInit fs).decls.map
        fun d => d.item.symbolKey).Nodup := by
  constructor
  · intro s f h
    exact functionCodegen_eq_of_skip s f (Or.inr h)
  · intro fs
    exact (codegenFunctions_key_invariant fs fnInit (by simp [fnInit])
      (by simp [fnInit])).2

/-- Witness for C2: a duplicate `foo` is skipped, and the double
declaration of `foo` in one pass yields distinct symbol keys. -/
theorem c2_function_symbol_dedup_witness :
    fFoo.symbolKey ∈ stFooSeen.functions_seen ∧
    functionCodegen stFooSeen fFoo = stFooSeen ∧
    ((codegenFunctions fnInit [fFoo, fFoo]).decls.map
      fun d => d.item.symbolKey).Nodup :=
  ⟨by decide, c2_function_symbol_dedup.1 stFooSeen fFoo (by decide),
    c2_function_symbol_dedup.2 [fFoo, fFoo]⟩

/-- Bumping an overload counter increments exactly the bumped key. -/
theorem getCount_bumpCount (m : List (String × Nat)) (k c : String) :
    getCount (bumpCount m k) c =
      if c = k then getCount m c + 1 else getCount m c := by
  induction m with
  | nil =>
    by_cases h : c = k
    · subst h; simp [bumpCount, getCount]
    · have h2 : ¬k = c := fun hh => h hh.symm
      simp [bumpCount, getCount, h, h2]
  | cons p rest ih =>
    obtain ⟨a, n⟩ := p
    by_cases ha : a = k
    · subst ha
      by_cases hc : c = a
      · subst hc; simp [bumpCount, getCount]
      · have h2 : ¬a = c := fun hh => hc hh.symm
        simp [bumpCount, getCount, hc, h2]
    · by_cases hc : a = c
      · subst hc
        simp [bumpCount, getCount, ha]
      · simp [bumpCount, getCount, ha, hc, ih]

/-- The overload identifier rewritten with the shape used by `identSeq`. -/
theorem overloadIdent_eq (c : String) (n : Nat) :
    overloadIdent c n = if n = 0 then c else c ++ toString n := by
  by_cases h : n = 0 <;> simp [overloadIdent, h, Nat.pos_iff_ne_zero]

/-- Unfolding of `identSeq` at a successor length. -/
theorem identSeq_succ (c : String) (n : Nat) :
    identSeq c (n + 1) =
      identSeq c n ++ [if n = 0 then c else c ++ toString n] := by
  simp [identSeq, List.range_succ]

/-- One emission step preserves the overload-naming invariant: the counter
of each canonical name equals the number of declarations already emitted
under it, their identifiers follow the `name`, `name1`, ... sequence, and
every declaration carries the `link_name` computed from its item. -/
theorem functionCodegen_overload_invariant (s : FnState) (f : FuncItem)
    (h1 : ∀ c, getCount s.overload_counters c =
      (s.decls.filter fun d => d.item.canonical_name == c).length)
    (h2 : ∀ c, ((s.decls.filter fun d => d.item.canonical_name == c).map
        FnDecl.ident) =
      identSeq c (s.decls.filter fun d => d.item.canonical_name == c).length)
    (h3 : s.decls.map FnDecl.link_name =
      s.decls.map fun d => linkNameFor d.item) :
    (∀ c, getCount (functionCodegen s f).overload_counters c =
      ((functionCodegen s f).decls.filter
        fun d => d.item.canonical_name == c).length) ∧
    (∀ c, (((functionCodegen s f).decls.filter
        fun d => d.item.canonical_name == c).map FnDecl.ident) =
      identSeq c ((functionCodegen s f).decls.filter
        fun d => d.item.canonical_name == c).length) ∧
    ((functionCodegen s f).decls.map FnDecl.link_name =
      (functionCodegen s f).decls.map fun d => linkNameFor d.item) := by
  by_cases ht : f.has_type_params
  · rw [functionCodegen_eq_of_skip s f (Or.inl ht)]
    exact ⟨h1, h2, h3⟩
  · by_cases hk : f.symbolKey ∈ s.functions_seen
    · rw [functionCodegen_eq_of_skip s f (Or.inr hk)]
      exact ⟨h1, h2, h3⟩
    · rw [functionCodegen_eq_of_new s f (by simpa using ht) hk]
      refine ⟨?_, ?_, ?_⟩
      · intro c
        rw [getCount_bumpCount]
        by_cases hc : c = f.canonical_name
        · subst hc
          simp [List.filter_append, h1]
        · have hne : ¬f.canonical_name = c := fun hh => hc hh.symm
          have hb : (f.canonical_name == c) = false := by simp [hne]
          simp [List.filter_append, h1, hc, hb]
      · intro c
        by_cases hc : c = f.canonical_name
        · subst hc
          simp [List.filter_append]
          rw [identSeq_succ, ← h2, overloadIdent_eq, h1]
        · have hne : ¬f.canonical_name = c := fun hh => hc hh.symm
          have hb : (f.canonical_name == c) = false := by simp [hne]
          simp [List.filter_append, hb, h2]
      · simp [List.map_append, h3]

/-- A whole pass preserves the overload-naming invariant. -/
theorem codegenFunctions_overload_invariant (fs : List FuncItem) :
    ∀ (s : FnState),
    (∀ c, getCount s.overload_counters c =
      (s.decls.filter fun d => d.item.canonical_name == c).length) →
    (∀ c, ((s.decls.filter fun d => d.item.canonical_name == c).map
        FnDecl.ident) =
      identSeq c
        (s.decls.filter fun d => d.item.canonical_name == c).length) →
    (s.decls.map FnDecl.link_name =
      s.decls.map fun d => linkNameFor d.item) →
    (∀ c, (((codegenFunctions s fs).decls.filter
        fun d => d.item.canonical_name == c).map FnDecl.ident) =
      identSeq c ((codegenFunctions s fs).decls.filter
        fun d => d.item.canonical_name == c).length) ∧
    ((codegenFunctions s fs).decls.map FnDecl.link_name =
      (codegenFunctions s fs).decls.map fun d => linkNameFor d.item) := by
  induction fs with
  | nil => exact fun s h1 h2 h3 => ⟨h2, h3⟩
  | cons f fs ih =>
    intro s h1 h2 h3
    rw [codegenFunctions]
    have step := functionCodegen_overload_invariant s f h1 h2 h3
    exact ih (functionCodegen s f) step.1 step.2.1 step.2.2

/-- C3 (amended): in any pass, for each canonical function name `c` under
which `k` overloads are emitted, the emitted identifiers are `c`, `c1`,
..., `c(k-1)`; a `link_name` attribute retaining the original symbol is
present exactly on the overloads that carry a mangled name and on those
whose source name differs from their canonical name (an overload with
index at least 1 that has no mangled name and whose source name equals its
canonical name carries no `link_name`). -/
theorem c3_overload_naming_amended (fs : List FuncItem) (c : String) :
    (((codegenFunctions fnInit fs).decls.filter
        fun d => d.item.canonical_name == c).map FnDecl.ident) =
      identSeq c ((codegenFunctions fnInit fs).decls.filter
        fun d => d.item.canonical_name == c).length ∧
    (codegenFunctions fnInit fs).decls.map FnDecl.link_name =
      (codegenFunctions fnInit fs).decls.map fun d => linkNameFor d.item := by
  have h := codegenFunctions_overload_invariant fs fnInit
    (by intro c0; simp [fnInit, getCount])
    (by intro c0; simp [fnInit, identSeq])
    (by simp [fnInit])
  exact ⟨h.1 c, h.2⟩

/-- C3 counterexample: a mangled overload of `foo` followed by an
unmangled redeclaration named `foo` with canonical name `foo`; the second
overload is emitted as `foo1` with no `link_name` attribute, refuting the
claim that overloads 1..k-1 always retain their original symbol through a
`link_name`. -/
theorem c3_counterexample_missing_link_name :
    ((codegenFunctions fnInit [fFooMangled, fFoo]).decls.map
      fun d => (d.item.canonical_name, d.ident, d.link_name)) =
      [("foo", "foo", some "_Z3foov"), ("foo", "foo1", none)] := by
  decide

/-- Every item of the occupied branch originates from the processed
variant. -/
theorem occupiedOut_source (P : EnumParams) (v : EnumVariant)
    (first : String) : ∀ o ∈ occupiedOut P v first, EnumOut.source o = v := by
  intro o ho
  unfold occupiedOut at ho
  split at ho <;> simp only [List.mem_singleton] at ho <;> subst ho <;> rfl

/-- Every item of the vacant branch originates from the processed
variant. -/
theorem vacantOut_source (P : EnumParams) (v : EnumVariant) :
    ∀ o ∈ vacantOut P v, EnumOut.source o = v := by
  intro o ho
  unfold vacantOut at ho
  rcases List.mem_cons.mp ho with h | h
  · subst h
    split <;> rfl
  · split at h
    · simp only [List.mem_singleton] at h
      subst h
      rfl
    · simp at h

/-- A `seen_values` lookup fails exactly when the value is not among the
recorded keys. -/
theorem lookupSeen_eq_none_iff (seen : List (EnumVariantValue × String))
    (x : EnumVariantValue) :
    lookupSeen seen x = none ↔ x ∉ seen.map Prod.fst := by
  induction seen with
  | nil => simp [lookupSeen]
  | cons p rest ih =>
    obtain ⟨a, n⟩ := p
    by_cases h : a = x
    · subst h; simp [lookupSeen]
    · have hne : ¬x = a := fun hh => h hh.symm
      simp [lookupSeen, h, hne, ih]

/-- A successful `seen_values` lookup means the value is among the
recorded keys. -/
theorem lookupSeen_eq_some_mem (seen : List (EnumVariantValue × String))
    (x : EnumVariantValue) (m : String) (h : lookupSeen seen x = some m) :
    x ∈ seen.map Prod.fst := by
  by_contra hx
  rw [← lookupSeen_eq_none_iff] at hx
  rw [h] at hx
  exact Option.noConfusion hx

/-- Structural invariant of the variant loop: every emitted item
originates from a non-hidden variant, and every `seen_values` entry was
present initially or records the value of a non-hidden variant of the
remaining input or the deferred queue. -/
theorem emitVariants_hidden_invariant (P : EnumParams)
    (rem q : List EnumVariant) (seen : List (EnumVariantValue × String)) :
    (∀ o ∈ (emitVariants P rem q seen).1,
      (EnumOut.source o).hidden = false) ∧
    (∀ e ∈ (emitVariants P rem q seen).2,
      e ∈ seen ∨ ∃ w, (w ∈ rem ∨ w ∈ q) ∧ w.hidden = false ∧ w.val = e.1) := by
  induction rem, q, seen using emitVariants.induct (P := P) with
  | case1 seen =>
    constructor
    · intro o ho
      simp [emitVariants] at ho
    · intro e he
      simp only [emitVariants] at he
      exact Or.inl he
  | case2 v q seen hv ih =>
    have heq : emitVariants P [] (v :: q) seen = emitVariants P [] q seen := by
      simp [emitVariants, hv]
    rw [heq]
    refine ⟨ih.1, fun e he => (ih.2 e he).imp_right ?_⟩
    rintro ⟨w, hw, h2, h3⟩
    exact ⟨w, hw.imp_right (List.mem_cons_of_mem v), h2, h3⟩
  | case3 v q seen hv m hm ih =>
    have hvf : v.hidden = false := by simpa using hv
    have heq : emitVariants P [] (v :: q) seen =
        (occupiedOut P v m ++ (emitVariants P [] q seen).1,
          (emitVariants P [] q seen).2) := by
      simp [emitVariants, hvf, hm]
    rw [heq]
    constructor
    · intro o ho
      rcases List.mem_append.mp ho with h | h
      · rw [occupiedOut_source P v m o h]; exact hvf
      · exact ih.1 o h
    · intro e he
      refine (ih.2 e he).imp_right ?_
      rintro ⟨w, hw, h2, h3⟩
      exact ⟨w, hw.imp_right (List.mem_cons_of_mem v), h2, h3⟩
  | case4 v q seen hv hm ih =>
    have hvf : v.hidden = false := by simpa using hv
    have heq : emitVariants P [] (v :: q) seen =
        (vacantOut P v ++
            (emitVariants P [] q (seen ++ [(v.val, v.name)])).1,
          (emitVariants P [] q (seen ++ [(v.val, v.name)])).2) := by
      simp [emitVariants, hvf, hm]
    rw [heq]
    constructor
    · intro o ho
      rcases List.mem_append.mp ho with h | h
      · rw [vacantOut_source P v o h]; exact hvf
      · exact ih.1 o h
    · intro e he
      rcases ih.2 e he with h | ⟨w, hw, h2, h3⟩
      · rcases List.mem_append.mp h with h | h
        · exact Or.inl h
        · obtain rfl := List.mem_singleton.mp h
          exact Or.inr ⟨v, Or.inr (List.mem_cons_self _ _), hvf, rfl⟩
      · exact Or.inr ⟨w, hw.imp_right (List.mem_cons_of_mem v), h2, h3⟩
  | case5 v rest q seen hv ih =>
    have heq : emitVariants P (v :: rest) q seen =
        emitVariants P rest q seen := by
      simp [emitVariants, hv]
    rw [heq]
    refine ⟨ih.1, fun e he => (ih.2 e he).imp_right ?_⟩
    rintro ⟨w, hw, h2, h3⟩
    exact ⟨w, hw.imp_left (List.mem_cons_of_mem v), h2, h3⟩
  | case6 v rest q seen hv hfc ih =>
    have hvf : v.hidden = false := by simpa using hv
    have heq : emitVariants P (v :: rest) q seen =
        emitVariants P rest (q ++ [v]) seen := by
      simp [emitVariants, hvf, hfc]
    rw [heq]
    refine ⟨ih.1, fun e he => (ih.2 e he).imp_right ?_⟩
    rintro ⟨w, hw, h2, h3⟩
    refine ⟨w, ?_, h2, h3⟩
    rcases hw with h | h
    · exact Or.inl (List.mem_cons_of_mem v h)
    · rcases List.mem_append.mp h with h | h
      · exact Or.inr h
      · obtain rfl := List.mem_singleton.mp h
        exact Or.inl (List.mem_cons_self _ _)
  | case7 v rest q seen hv hfc m hm ih =>
    have hvf : v.hidden = false := by simpa using hv
    have heq : emitVariants P (v :: rest) q seen =
        (occupiedOut P v m ++ (emitVariants P rest q seen).1,
          (emitVariants P rest q seen).2) := by
      simp [emitVariants, hvf, hfc, hm]
    rw [heq]
    constructor
    · intro o ho
      rcases List.mem_append.mp ho with h | h
      · rw [occupiedOut_source P v m o h]; exact hvf
      · exact ih.1 o h
    · intro e he
      refine (ih.2 e he).imp_right ?_
      rintro ⟨w, hw, h2, h3⟩
      exact ⟨w, hw.imp_left (List.mem_cons_of_mem v), h2, h3⟩
  | case8 v rest q seen hv hfc hm ih =>
    have hvf : v.hidden = false := by simpa using hv
    have heq : emitVariants P (v :: rest) q seen =
        (vacantOut P v ++
            (emitVariants P rest q (seen ++ [(v.val, v.name)])).1,
          (emitVariants P rest q (seen ++ [(v.val, v.name)])).2) := by
      simp [emitVariants, hvf, hfc, hm]
    rw [heq]
    constructor
    · intro o ho
      rcases List.mem_append.mp ho with h | h
      · rw [vacantOut_source P v o h]; exact hvf
      · exact ih.1 o h
    · intro e he
      rcases ih.2 e he with h | ⟨w, hw, h2, h3⟩
      · rcases List.mem_append.mp h with h | h
        · exact Or.inl h
        · obtain rfl := List.mem_singleton.mp h
          exact Or.inr ⟨v, Or.inl (List.mem_cons_self _ _), hvf, rfl⟩
      · exact Or.inr ⟨w, hw.imp_left (List.mem_cons_of_mem v), h2, h3⟩

/-- C10: under any of the four emission strategies, a hidden variant
produces no arm, no constant and no alias (every emitted item originates
from a non-hidden variant), and its value is never recorded in
`seen_values` (every recorded value belongs to some non-hidden variant),
so it does not count as seen for the duplicate-value rule. -/
theorem c10_hidden_variants_emit_nothing (P : EnumParams)
    (vs : List EnumVariant) :
    (∀ o ∈ enumCodegen P vs, (EnumOut.source o).hidden = false) ∧
    (∀ e ∈ enumFinalSeen P vs,
      ∃ w ∈ vs, w.hidden = false ∧ w.val = e.1) := by
  have h := emitVariants_hidden_invariant P vs [] []
  refine ⟨h.1, fun e he => ?_⟩
  rcases h.2 e he with he' | ⟨w, hw, h2, h3⟩
  · simp at he'
  · rcases hw with hw | hw
    · exact ⟨w, hw, h2, h3⟩
    · simp at hw

/-- Witness for C10 at the enum with a hidden variant `A` and a visible
variant `B`: the single emitted item is the arm for `B`, whose source is
not hidden, and the single recorded value belongs to `B`. -/
theorem c10_hidden_variants_emit_nothing_witness :
    (EnumOut.arm ⟨"B", EnumVariantValue.unsigned 2, false, false⟩ "B"
        (EnumVariantValue.unsigned 2)) ∈ enumCodegen enumParamsH variantsH ∧
    (EnumOut.source (EnumOut.arm
        ⟨"B", EnumVariantValue.unsigned 2, false, false⟩ "B"
        (EnumVariantValue.unsigned 2))).hidden = false ∧
    (EnumVariantValue.unsigned 2, "B") ∈ enumFinalSeen enumParamsH variantsH ∧
    (∃ w ∈ variantsH, w.hidden = false ∧
      w.val = (EnumVariantValue.unsigned 2, "B").1) := by
  have hmem : (EnumOut.arm ⟨"B", EnumVariantValue.unsigned 2, false, false⟩
      "B" (EnumVariantValue.unsigned 2)) ∈
      enumCodegen enumParamsH variantsH := by
    simp [enumCodegen, emitVariants, enumParamsH, variantsH, vacantOut,
      occupiedOut, lookupSeen]
  have hmem2 : (EnumVariantValue.unsigned 2, "B") ∈
      enumFinalSeen enumParamsH variantsH := by
    simp [enumFinalSeen, emitVariants, enumParamsH, variantsH, vacantOut,
      occupiedOut, lookupSeen]
  exact ⟨hmem,
    (c10_hidden_variants_emit_nothing enumParamsH variantsH).1 _ hmem,
    hmem2,
    (c10_hidden_variants_emit_nothing enumParamsH variantsH).2 _ hmem2⟩

/-- Arm counting distributes over append. -/
theorem countArms_append (l1 l2 : List EnumOut) :
    countArms (l1 ++ l2) = countArms l1 + countArms l2 := by
  simp [countArms, List.filter_append]

/-- The occupied branch emits no arm. -/
theorem countArms_occupiedOut (P : EnumParams) (v : EnumVariant)
    (first : String) : countArms (occupiedOut P v first) = 0 := by
  unfold occupiedOut
  split <;> simp [countArms, EnumOut.isArm]

/-- For a tagged enum the vacant branch emits exactly one arm. -/
theorem countArms_vacantOut (P : EnumParams) (v : EnumVariant)
    (h : P.style = EnumStyle.rust) : countArms (vacantOut P v) = 1 := by
  simp only [vacantOut, h, if_true]
  split <;> simp [countArms, EnumOut.isArm]

/-- Cardinality of an insertion, phrased through an erasure. -/
theorem card_insert_eq_card_erase_add_one {α : Type} [DecidableEq α]
    (B : Finset α) (x : α) :
    (insert x B).card = (B.erase x).card + 1 := by
  by_cases h : x ∈ B
  · rw [Finset.insert_eq_self.mpr h]
    have := Finset.card_erase_add_one h
    omega
  · rw [Finset.erase_eq_of_not_mem h, Finset.card_insert_of_not_mem h]

/-- Appending one element to a list and taking the `toFinset` inserts the
element. -/
theorem toFinset_append_singleton {α : Type} [DecidableEq α]
    (l : List α) (x : α) :
    (l ++ [x]).toFinset = insert x l.toFinset := by
  rw [List.toFinset_eq_of_perm _ _ (@List.perm_append_comm _ l [x])]
  simp

/-- The number of arms produced by the variant loop of a tagged enum is
the number of distinct non-hidden variant values of the remaining input
and queue that are not already recorded in `seen_values`. -/
theorem emitVariants_arm_count (P : EnumParams)
    (hstyle : P.style = EnumStyle.rust) (rem q : List EnumVariant)
    (seen : List (EnumVariantValue × String)) :
    countArms (emitVariants P rem q seen).1 =
      (((((rem ++ q).filter fun v => !v.hidden).map
          EnumVariant.val).toFinset) \
        ((seen.map Prod.fst).toFinset)).card := by
  induction rem, q, seen using emitVariants.induct (P := P) with
  | case1 seen => simp [emitVariants, countArms]
  | case2 v q seen hv ih =>
    have heq : emitVariants P [] (v :: q) seen = emitVariants P [] q seen := by
      simp [emitVariants, hv]
    rw [heq, ih]
    simp [hv]
  | case3 v q seen hv m hm ih =>
    have hvf : v.hidden = false := by simpa using hv
    have heq : (emitVariants P [] (v :: q) seen).1 =
        occupiedOut P v m ++ (emitVariants P [] q seen).1 := by
      simp [emitVariants, hvf, hm]
    have hmem : v.val ∈ (seen.map Prod.fst).toFinset := by
      rw [List.mem_toFinset]
      exact lookupSeen_eq_some_mem seen v.val m hm
    rw [heq, countArms_append, countArms_occupiedOut, ih]
    simp [hvf, Finset.insert_sdiff_of_mem _ hmem]
  | case4 v q seen hv hm ih =>
    have hvf : v.hidden = false := by simpa using hv
    have heq : (emitVariants P [] (v :: q) seen).1 =
        vacantOut P v ++
          (emitVariants P [] q (seen ++ [(v.val, v.name)])).1 := by
      simp [emitVariants, hvf, hm]
    have hx : v.val ∉ (seen.map Prod.fst).toFinset := by
      rw [List.mem_toFinset]
      exact (lookupSeen_eq_none_iff seen v.val).mp hm
    rw [heq, countArms_append, countArms_vacantOut P v hstyle, ih]
    simp only [List.map_append, List.map_cons, List.map_nil,
      toFinset_append_singleton, List.nil_append]
    rw [Finset.sdiff_insert, List.filter_cons_of_pos (by simp [hvf]),
      List.map_cons, List.toFinset_cons,
      Finset.insert_sdiff_of_not_mem _ hx,
      card_insert_eq_card_erase_add_one]
    omega
  | case5 v rest q seen hv ih =>
    have heq : emitVariants P (v :: rest) q seen =
        emitVariants P rest q seen := by
      simp [emitVariants, hv]
    rw [heq, ih]
    simp [hv]
  | case6 v rest q seen hv hfc ih =>
    have hvf : v.hidden = false := by simpa using hv
    have heq : emitVariants P (v :: rest) q seen =
        emitVariants P rest (q ++ [v]) seen := by
      simp [emitVariants, hvf, hfc]
    have hperm : List.Perm (rest ++ (q ++ [v])) ((v :: rest) ++ q) := by
      have h1 : rest ++ (q ++ [v]) = (rest ++ q) ++ [v] :=
        (List.append_assoc rest q [v]).symm
      rw [h1]
      have h2 : List.Perm ((rest ++ q) ++ [v]) ([v] ++ (rest ++ q)) :=
        List.perm_append_comm
      simpa using h2
    have hset : (((rest ++ (q ++ [v])).filter fun v => !v.hidden).map
          EnumVariant.val).toFinset =
        ((((v :: rest) ++ q).filter fun v => !v.hidden).map
          EnumVariant.val).toFinset :=
      List.toFinset_eq_of_perm _ _ ((hperm.filter _).map _)
    rw [heq, ih, hset]
  | case7 v rest q seen hv hfc m hm ih =>
    have hvf : v.hidden = false := by simpa using hv
    have heq : (emitVariants P (v :: rest) q seen).1 =
        occupiedOut P v m ++ (emitVariants P rest q seen).1 := by
      simp [emitVariants, hvf, hfc, hm]
    have hmem : v.val ∈ (seen.map Prod.fst).toFinset := by
      rw [List.mem_toFinset]
      exact lookupSeen_eq_some_mem seen v.val m hm
    rw [heq, countArms_append, countArms_occupiedOut, ih]
    rw [List.cons_append, List.filter_cons_of_pos (by simp [hvf]),
      List.map_cons, List.toFinset_cons,
      Finset.insert_sdiff_of_mem _ hmem]
    omega
  | case8 v rest q seen hv hfc hm ih =>
    have hvf : v.hidden = false := by simpa using hv
    have heq : (emitVariants P (v :: rest) q seen).1 =
        vacantOut P v ++
          (emitVariants P rest q (seen ++ [(v.val, v.name)])).1 := by
      simp [emitVariants, hvf, hfc, hm]
    have hx : v.val ∉ (seen.map Prod.fst).toFinset := by
      rw [List.mem_toFinset]
      exact (lookupSeen_eq_none_iff seen v.val).mp hm
    rw [heq, countArms_append, countArms_vacantOut P v hstyle, ih]
    simp only [List.map_append, List.map_cons, List.map_nil,
      toFinset_append_singleton]
    rw [Finset.sdiff_insert, List.cons_append,
      List.filter_cons_of_pos (by simp [hvf]),
      List.map_cons, List.toFinset_cons,
      Finset.insert_sdiff_of_not_mem _ hx,
      card_insert_eq_card_erase_add_one]
    omega

/-- With no force-constified variant the deferral queue stays empty, and
the variant loop of a tagged enum is the linear pass of the claim over
the non-hidden variants in declaration order. -/
theorem emitVariants_no_force_const (P : EnumParams)
    (hstyle : P.style = EnumStyle.rust) (rem : List EnumVariant) :
    ∀ (seen : List (EnumVariantValue × String)),
    (∀ v ∈ rem, v.force_constification = false) →
    (emitVariants P rem [] seen).1 =
      claimRustEmit P (rem.filter fun v => !v.hidden) seen := by
  induction rem with
  | nil =>
    intro seen h
    simp [emitVariants, claimRustEmit]
  | cons v rest ih =>
    intro seen h
    have hfc : v.force_constification = false := h v (List.mem_cons_self _ _)
    have hrest : ∀ w ∈ rest, w.force_constification = false :=
      fun w hw => h w (List.mem_cons_of_mem _ hw)
    by_cases hv : v.hidden
    · have heq : emitVariants P (v :: rest) [] seen =
          emitVariants P rest [] seen := by
        simp [emitVariants, hv]
      rw [heq, ih seen hrest]
      simp [hv]
    · have hvf : v.hidden = false := by simpa using hv
      cases hl : lookupSeen seen v.val with
      | some m =>
        have heq : (emitVariants P (v :: rest) [] seen).1 =
            occupiedOut P v m ++ (emitVariants P rest [] seen).1 := by
          simp [emitVariants, hvf, hfc, hl]
        rw [heq, ih seen hrest]
        rw [List.filter_cons_of_pos (by simp [hvf])]
        simp [claimRustEmit, hl, occupiedOut, hstyle]
      | none =>
        have heq : (emitVariants P (v :: rest) [] seen).1 =
            vacantOut P v ++
              (emitVariants P rest [] (seen ++ [(v.val, v.name)])).1 := by
          simp [emitVariants, hvf, hfc, hl]
        rw [heq, ih _ hrest]
        rw [List.filter_cons_of_pos (by simp [hvf])]
        simp [claimRustEmit, hl, vacantOut, hstyle, hfc]

/-- C4 (amended): for every enum emitted in the tagged style, the number
of emitted variant arms equals the number of distinct values among its
non-hidden variants; and, when no variant is force-constified, the
emission is exactly the linear pass of the claim: each non-hidden variant
whose value duplicates that of an earlier non-hidden variant is emitted
not as an arm but as a `pub const` alias to the first non-hidden variant
carrying that value. -/
theorem c4_tagged_enum_duplicates_amended (P : EnumParams)
    (vs : List EnumVariant) (hstyle : P.style = EnumStyle.rust) :
    countArms (enumCodegen P vs) = distinctNonHiddenValues vs ∧
    ((∀ v ∈ vs, v.force_constification = false) →
      enumCodegen P vs =
        claimRustEmit P (vs.filter fun v => !v.hidden) []) := by
  constructor
  · have h := emitVariants_arm_count P hstyle vs [] []
    simpa [enumCodegen, distinctNonHiddenValues] using h
  · intro hfc
    exact emitVariants_no_force_const P hstyle vs [] hfc

/-- Witness for C4 at spec scenario 6, `enum E { A = 1, B = 1, C = 2 }`
in the tagged style. -/
theorem c4_tagged_enum_duplicates_amended_witness :
    enumParamsE.style = EnumStyle.rust ∧
    (∀ v ∈ variantsE, v.force_constification = false) ∧
    (countArms (enumCodegen enumParamsE variantsE) =
        distinctNonHiddenValues variantsE ∧
      enumCodegen enumParamsE variantsE =
        claimRustEmit enumParamsE (variantsE.filter fun v => !v.hidden) []) := by
  have h := c4_tagged_enum_duplicates_amended enumParamsE variantsE rfl
  exact ⟨rfl, by decide, h.1, h.2 (by decide)⟩

/-- C4 counterexample: a tagged enum with a hidden variant `A = 1` and a
visible variant `B = 2` emits one arm, while the number of distinct
values among all of its variants is two, refuting the claim as stated
over all variants. -/
theorem c4_counterexample_hidden_unique_value :
    countArms (enumCodegen enumParamsH variantsH) = 1 ∧
    ((variantsH.map EnumVariant.val).toFinset).card = 2 ∧
    (1 : Nat) ≠ 2 := by
  refine ⟨?_, by decide, by decide⟩
  simp [enumCodegen, emitVariants, enumParamsH, variantsH, vacantOut,
    occupiedOut, lookupSeen, countArms, EnumOut.isArm]

end Bindgen
